import Mathlib

/-!
Verification of the commit-log parsing and graph-building core of a
git-history visualizer (`src/main.py`, class `GitVisualizer`).

Strings are modelled as `List Char`.  The parser `get_commits` mirrors
`GitVisualizer.get_commits` (lines 44-68 of the source): the raw stdout is
stripped, split on newline characters, and folded over with one optional
"current" record.  A file-path line seen while no current record exists makes
the Python code evaluate `None['files']`, which raises; the model returns
`none` in that case, so the parser's type is `Option (List Commit)`.

The graph builder `build_graph` mirrors `GitVisualizer.build_graph`
(lines 72-106).  Each appended line of the Python string list is modelled by a
constructor of `GLine`; `renderLine` maps each constructor to the exact text
the Python f-strings produce, and `build_graph_str` is the final
`'\n'.join(graph)`.  Python dicts (`commit_defs`, `file_defs`) are modelled as
insertion-ordered association lists with overwriting insert (`dictInsert`),
which matches dict semantics for the operations the source uses: key test,
lookup, length, assignment.
-/

abbrev Str := List Char

/-- Python `str.isspace` characters relevant to `str.strip()` / `str.split()`. -/
def isPySpace (c : Char) : Bool :=
  c = ' ' || c = '\t' || c = '\n' || c = '\r' || c = '\x0b' || c = '\x0c'

/-- Python `s.strip()`: drop leading and trailing whitespace. -/
def pyStrip (s : Str) : Str :=
  ((s.dropWhile isPySpace).reverse.dropWhile isPySpace).reverse

/-- Helper for `splitNl`: accumulates the current line (reversed). -/
def splitNlAux (cur : Str) : Str → List Str
  | [] => [cur.reverse]
  | c :: cs =>
    if c = '\n' then cur.reverse :: splitNlAux [] cs
    else splitNlAux (c :: cur) cs

/-- Python `s.split('\n')`: every newline separates, empty pieces kept,
`''.split('\n') = ['']`. -/
def splitNl (s : Str) : List Str := splitNlAux [] s

/-- Helper for `pySplitWs`: accumulates the current word (reversed). -/
def pySplitWsAux (cur : Str) : Str → List Str
  | [] => if cur = [] then [] else [cur.reverse]
  | c :: cs =>
    if isPySpace c then
      if cur = [] then pySplitWsAux [] cs else cur.reverse :: pySplitWsAux [] cs
    else pySplitWsAux (c :: cur) cs

/-- Python `s.split()` with no argument: split on whitespace runs, no empties. -/
def pySplitWs (s : Str) : List Str := pySplitWsAux [] s

/-- Split a string at its first `'|'`, `none` when there is no `'|'`. -/
def splitFirstBar : Str → Option (Str × Str)
  | [] => none
  | c :: cs =>
    if c = '|' then some ([], cs)
    else
      match splitFirstBar cs with
      | none => none
      | some (a, b) => some (c :: a, b)

/-- Python `line.split('|', 2)` followed by the source's
`parts if len(parts) == 3 else (*parts, '')` adjustment, as the triple
(hash field, message field, parent field).  Only reached when the line
contains `'|'`; the `none/none` case is unreachable there and maps the raw
line to the first field. -/
def splitHeader (line : Str) : Str × Str × Str :=
  match splitFirstBar line with
  | none => (line, [], [])
  | some (a, r) =>
    match splitFirstBar r with
    | none => (a, r, [])
    | some (b, c) => (a, b, c)

/-- One parsed commit record: the dict
`{'hash': …, 'message': …, 'parents': …, 'files': []}` of the source. -/
structure Commit where
  hash : Str
  message : Str
  parents : List Str
  files : List Str
deriving DecidableEq, Repr

/-- Fields of a header line: `line.split('|', 2)` adjusted to three parts,
then `parents = parent_hashes.strip().split()`. -/
def parseHeaderFields (line : Str) : Str × Str × List Str :=
  match splitHeader line with
  | (h, m, p) => (h, m, pySplitWs (pyStrip p))

/-- The line loop of `get_commits` (source lines 47-66).  State: the optional
current record and the records finished so far.  A non-empty line without
`'|'` while no current record exists is the Python `None['files']` crash,
modelled as `none`. -/
def getCommitsLoop : Option Commit → List Commit → List Str → Option (List Commit)
  | cur, acc, [] =>
    match cur with
    | some c => some (acc ++ [c])
    | none => some acc
  | cur, acc, line :: rest =>
    if line = [] then getCommitsLoop cur acc rest
    else if '|' ∈ line then
      let acc' := match cur with
        | some c => acc ++ [c]
        | none => acc
      match parseHeaderFields line with
      | (h, m, ps) => getCommitsLoop (some ⟨h, m, ps, []⟩) acc' rest
    else
      match cur with
      | none => none
      | some c => getCommitsLoop (some { c with files := c.files ++ [pyStrip line] }) acc rest

/-- `GitVisualizer.get_commits` applied to the raw stdout text:
`result.stdout.strip().split('\n')` fed to the line loop. -/
def get_commits (stdout : Str) : Option (List Commit) :=
  getCommitsLoop none [] (splitNl (pyStrip stdout))

/-- Synthetic node identifiers: the Python strings `f'Commit{idx+1}'` and
`f'File{len(file_defs)+1}'`, kept structured; `renderId` restores the text. -/
inductive NodeId where
  | commit (k : Nat)
  | file (k : Nat)
deriving DecidableEq, Repr

/-- One line appended to the Python `graph` list. -/
inductive GLine where
  | text (s : Str)
  | commitDecl (message : Str) (id : NodeId)
  | fileDecl (path : Str) (id : NodeId)
  | touched (commitId fileId : NodeId)
  | derives (parentId childId : NodeId)
deriving DecidableEq, Repr

def renderId : NodeId → Str
  | NodeId.commit k => "Commit".toList ++ Nat.toDigits 10 k
  | NodeId.file k => "File".toList ++ Nat.toDigits 10 k

/-- The exact text of each appended line (the Python f-strings). -/
def renderLine : GLine → Str
  | GLine.text s => s
  | GLine.commitDecl m i => "rectangle \"".toList ++ m ++ "\" as ".toList ++ renderId i
  | GLine.fileDecl p i => "rectangle \"".toList ++ p ++ "\" as ".toList ++ renderId i
  | GLine.touched c f => renderId c ++ " --> ".toList ++ renderId f
  | GLine.derives p c => renderId p ++ " <|-- ".toList ++ renderId c

/-- Python dict assignment `d[k] = v`: overwrite in place, append when new. -/
def dictInsert : List (Str × NodeId) → Str → NodeId → List (Str × NodeId)
  | [], k, v => [(k, v)]
  | (k', v') :: rest, k, v =>
    if k' = k then (k', v) :: rest else (k', v') :: dictInsert rest k v

/-- Python dict lookup `d[k]` / membership `k in d`. -/
def dictLookup : List (Str × NodeId) → Str → Option NodeId
  | [], _ => none
  | (k', v') :: rest, k => if k' = k then some v' else dictLookup rest k

/-- The inner file loop of `build_graph` (source lines 90-95): for each path of
the commit, declare a fresh file node when the path is new, then record the
touched edge.  Returns the emitted lines and the updated `file_defs`. -/
def addFiles (cid : NodeId) : List Str → List (Str × NodeId) → List GLine × List (Str × NodeId)
  | [], fds => ([], fds)
  | p :: rest, fds =>
    match dictLookup fds p with
    | some fid =>
      match addFiles cid rest fds with
      | (ls, fds') => (GLine.touched cid fid :: ls, fds')
    | none =>
      let fid := NodeId.file (fds.length + 1)
      match addFiles cid rest (dictInsert fds p fid) with
      | (ls, fds') => (GLine.fileDecl p fid :: GLine.touched cid fid :: ls, fds')

/-- The first pass of `build_graph` (source lines 84-95) over the already
reversed commit list, carrying the enumeration index and both dicts. -/
def buildNodes : List Commit → Nat → List (Str × NodeId) → List (Str × NodeId) →
    List GLine × List (Str × NodeId) × List (Str × NodeId)
  | [], _, cds, fds => ([], cds, fds)
  | c :: rest, idx, cds, fds =>
    let cid := NodeId.commit (idx + 1)
    match addFiles cid c.files fds with
    | (fLines, fds') =>
      match buildNodes rest (idx + 1) (dictInsert cds c.hash cid) fds' with
      | (ls, cds', fds'') => (GLine.commitDecl c.message cid :: fLines ++ ls, cds', fds'')

/-- `commit_defs[commit['hash']]` of the second pass; the lookup always
succeeds there, the default is never reached. -/
def childIdIn (cds : List (Str × NodeId)) (c : Commit) : NodeId :=
  (dictLookup cds c.hash).getD (NodeId.commit 0)

/-- The parent loop of the second pass (source lines 100-103). -/
def parentEdges (cds : List (Str × NodeId)) (childId : NodeId) : List Str → List GLine
  | [] => []
  | p :: ps =>
    match dictLookup cds p with
    | some pid => GLine.derives pid childId :: parentEdges cds childId ps
    | none => parentEdges cds childId ps

/-- The second pass of `build_graph` (source lines 98-103) over the reversed
commit list. -/
def buildDerives (cds : List (Str × NodeId)) : List Commit → List GLine
  | [] => []
  | c :: rest => parentEdges cds (childIdIn cds c) c.parents ++ buildDerives cds rest

/-- The fixed opening lines of the Python `graph` list. -/
def preambleLines : List GLine :=
  [GLine.text "@startuml".toList,
   GLine.text "skinparam rectangle \x7b".toList,
   GLine.text "   BackgroundColor #FDF6E3".toList,
   GLine.text "\x7d".toList]

/-- `GitVisualizer.build_graph` as the list of appended lines. -/
def build_graph (commits : List Commit) : List GLine :=
  match buildNodes commits.reverse 0 [] [] with
  | (nodeLines, cds, _) =>
    preambleLines ++ nodeLines ++ buildDerives cds commits.reverse ++
      [GLine.text "@enduml".toList]

/-- `GitVisualizer.build_graph`'s return value, the `'\n'.join(graph)` text. -/
def build_graph_str (commits : List Commit) : Str :=
  List.intercalate "\n".toList ((build_graph commits).map renderLine)

/-- The final `commit_defs` dict of a `build_graph` run. -/
def commitDefsOf (commits : List Commit) : List (Str × NodeId) :=
  (buildNodes commits.reverse 0 [] []).2.1

/-- The final `file_defs` dict of a `build_graph` run. -/
def fileDefsOf (commits : List Commit) : List (Str × NodeId) :=
  (buildNodes commits.reverse 0 [] []).2.2

/-- Index of the first record carrying hash `x` (length when absent). -/
def firstHashIdx (x : Str) : List Commit → Nat
  | [] => 0
  | c :: rest => if c.hash = x then 0 else firstHashIdx x rest + 1

def isCommitDecl : GLine → Bool
  | GLine.commitDecl _ _ => true
  | _ => false

def isFileDeclFor (p : Str) : GLine → Bool
  | GLine.fileDecl q _ => decide (q = p)
  | _ => false

def isTouchedTo (fid : NodeId) : GLine → Bool
  | GLine.touched _ f => decide (f = fid)
  | _ => false

/-- Number of commit-node declarations among the graph lines. -/
def countCommitDecl (ls : List GLine) : Nat := ls.countP isCommitDecl

/-- Number of file-node declarations for path `p` among the graph lines. -/
def countFileDecl (p : Str) (ls : List GLine) : Nat := ls.countP (isFileDeclFor p)

/-- Number of touched edges pointing at file node `fid` among the graph lines. -/
def countTouchedTo (fid : NodeId) (ls : List GLine) : Nat := ls.countP (isTouchedTo fid)

/-- Occurrences of a path in one commit's file list. -/
def occCount (path : Str) (fs : List Str) : Nat := fs.countP (fun f => decide (f = path))

/-- Single-space join of a word list, the shape `p1 p2` of a parent field. -/
def spaceJoin : List Str → Str
  | [] => []
  | [w] => w
  | w :: ws => w ++ ' ' :: spaceJoin ws

/-- The evolution of `commit_defs` through the first pass. -/
def cdsAux : List Commit → Nat → List (Str × NodeId) → List (Str × NodeId)
  | [], _, cds => cds
  | c :: rest, idx, cds => cdsAux rest (idx + 1) (dictInsert cds c.hash (NodeId.commit (idx + 1)))

/-- Well-formed `file_defs`: the values are `File1 … Filen` in insertion order,
exactly what the `len(file_defs) + 1` numbering produces. -/
def wfFds (fds : List (Str × NodeId)) : Prop :=
  fds.map Prod.snd = (List.range fds.length).map (fun i => NodeId.file (i + 1))

/-- The log text of the spec's worked scenario. -/
def scenarioInput : Str :=
  "a1|Initial commit|\nfile1.txt\na2|Add feature|a1\nfile2.txt\nfile1.txt".toList

/-- Concrete root commit used by witnesses. -/
def wA : Commit := ⟨"a1".toList, "m1".toList, [], []⟩

/-- Concrete child commit (parent `a1`, one file) used by witnesses. -/
def wB : Commit := ⟨"a2".toList, "m2".toList, ["a1".toList], ["f.txt".toList]⟩

/-- Concrete newest-first sequence used by witnesses. -/
def wCommits : List Commit := [wB, wA]

/-- First record of the duplicate-hash witness sequence (hash `x`, one
self-parent so a derives edge exists). -/
def wDupA : Commit := ⟨"x".toList, "m1".toList, ["x".toList], []⟩

/-- Second record of the duplicate-hash witness sequence (same hash `x`). -/
def wDupB : Commit := ⟨"x".toList, "m2".toList, [], []⟩

/-- Witness sequence with a duplicated hash. -/
def wDups : List Commit := [wDupA, wDupB]

/-- Witness sequence in which two records touch the same file `f.txt`. -/
def wShared : List Commit :=
  [⟨"b2".toList, "m2".toList, [], ["f.txt".toList, "g.txt".toList]⟩,
   ⟨"b1".toList, "m1".toList, [], ["f.txt".toList]⟩]

/-- Single record whose file list repeats the path `f` twice. -/
def wDoubled : List Commit :=
  [⟨"c1".toList, "m".toList, [], ["f".toList, "f".toList]⟩]

example : get_commits "a1|Initial commit|\nfile1.txt\na2|Add feature|a1\nfile2.txt\nfile1.txt".toList =
    some [⟨"a1".toList, "Initial commit".toList, [], ["file1.txt".toList]⟩,
          ⟨"a2".toList, "Add feature".toList, ["a1".toList], ["file2.txt".toList, "file1.txt".toList]⟩] := by
  decide

example : get_commits "file1.txt".toList = none := by decide

example : build_graph [⟨"a1".toList, "m1".toList, [], ["f".toList]⟩] =
    preambleLines ++
      [GLine.commitDecl "m1".toList (NodeId.commit 1),
       GLine.fileDecl "f".toList (NodeId.file 1),
       GLine.touched (NodeId.commit 1) (NodeId.file 1),
       GLine.text "@enduml".toList] := by
  decide

/-! ### Dictionary lemmas -/

theorem dictLookup_insert (d : List (Str × NodeId)) (k k' : Str) (v : NodeId) :
    dictLookup (dictInsert d k v) k' = if k' = k then some v else dictLookup d k' := by
  induction d with
  | nil =>
    simp only [dictInsert, dictLookup]
    by_cases h : k' = k
    · subst h; simp
    · have h2 : ¬ k = k' := fun he => h he.symm
      simp [h, h2]
  | cons hd tl ih =>
    obtain ⟨k0, v0⟩ := hd
    simp only [dictInsert]
    by_cases h0 : k0 = k
    · subst h0
      simp only [if_pos rfl, dictLookup]
      by_cases h1 : k0 = k'
      · subst h1; simp
      · have h2 : ¬ k' = k0 := fun he => h1 he.symm
        simp [h1, h2]
    · simp only [if_neg h0, dictLookup]
      by_cases h1 : k0 = k'
      · subst h1
        simp [h0]
      · simp only [if_neg h1]
        exact ih

theorem dictLookup_append_some {d : List (Str × NodeId)} {p : Str} {v : NodeId}
    (e : List (Str × NodeId)) (h : dictLookup d p = some v) :
    dictLookup (d ++ e) p = some v := by
  induction d with
  | nil => simp [dictLookup] at h
  | cons hd tl ih =>
    obtain ⟨k0, v0⟩ := hd
    simp only [dictLookup] at h
    simp only [List.cons_append, dictLookup]
    by_cases h0 : k0 = p
    · rw [if_pos h0] at h ⊢; exact h
    · rw [if_neg h0] at h ⊢; exact ih h

theorem dictInsert_of_absent {d : List (Str × NodeId)} {k : Str}
    (h : dictLookup d k = none) (v : NodeId) :
    dictInsert d k v = d ++ [(k, v)] := by
  induction d with
  | nil => simp [dictInsert]
  | cons hd tl ih =>
    obtain ⟨k0, v0⟩ := hd
    simp only [dictLookup] at h
    by_cases h0 : k0 = k
    · rw [if_pos h0] at h; exact absurd h (by simp)
    · rw [if_neg h0] at h
      simp [dictInsert, h0, ih h]

theorem dictLookup_mem {d : List (Str × NodeId)} {p : Str} {v : NodeId}
    (h : dictLookup d p = some v) : (p, v) ∈ d := by
  induction d with
  | nil => simp [dictLookup] at h
  | cons hd tl ih =>
    obtain ⟨k0, v0⟩ := hd
    simp only [dictLookup] at h
    by_cases h0 : k0 = p
    · rw [if_pos h0] at h
      subst h0
      simp at h
      simp [h]
    · rw [if_neg h0] at h
      exact List.mem_cons_of_mem _ (ih h)

/-! ### The `commit_defs` dict, decoupled from the file pass -/

theorem buildNodes_cds (l : List Commit) :
    ∀ idx cds fds, (buildNodes l idx cds fds).2.1 = cdsAux l idx cds := by
  induction l with
  | nil => intro idx cds fds; rfl
  | cons c rest ih =>
    intro idx cds fds
    rcases h1 : addFiles (NodeId.commit (idx + 1)) c.files fds with ⟨fLines, fds'⟩
    rcases h2 : buildNodes rest (idx + 1) (dictInsert cds c.hash (NodeId.commit (idx + 1))) fds'
      with ⟨ls, cds', fds''⟩
    have h3 := ih (idx + 1) (dictInsert cds c.hash (NodeId.commit (idx + 1))) fds'
    rw [h2] at h3
    simp only [buildNodes, h1, h2, cdsAux]
    exact h3

theorem cdsAux_append (l₁ l₂ : List Commit) :
    ∀ idx cds, cdsAux (l₁ ++ l₂) idx cds = cdsAux l₂ (idx + l₁.length) (cdsAux l₁ idx cds) := by
  induction l₁ with
  | nil => intro idx cds; simp [cdsAux]
  | cons c rest ih =>
    intro idx cds
    show cdsAux (rest ++ l₂) (idx + 1) (dictInsert cds c.hash (NodeId.commit (idx + 1))) =
      cdsAux l₂ (idx + (rest.length + 1))
        (cdsAux rest (idx + 1) (dictInsert cds c.hash (NodeId.commit (idx + 1))))
    rw [ih]
    have hn : idx + 1 + rest.length = idx + (rest.length + 1) := by omega
    rw [hn]

theorem cdsAux_lookup_notMem {x : Str} (l : List Commit)
    (h : ∀ c ∈ l, c.hash ≠ x) :
    ∀ idx cds, dictLookup (cdsAux l idx cds) x = dictLookup cds x := by
  induction l with
  | nil => intro idx cds; rfl
  | cons c rest ih =>
    intro idx cds
    have hc : c.hash ≠ x := h c (List.mem_cons_self c rest)
    have hx : ¬ x = c.hash := fun he => hc he.symm
    simp only [cdsAux]
    rw [ih (fun c' hc' => h c' (List.mem_cons_of_mem _ hc')), dictLookup_insert]
    simp [hx]

theorem firstHashIdx_lt_length {x : Str} {l : List Commit}
    (h : ∃ c ∈ l, c.hash = x) : firstHashIdx x l < l.length := by
  induction l with
  | nil => simp at h
  | cons c rest ih =>
    by_cases hc : c.hash = x
    · simp [firstHashIdx, hc]
    · simp only [firstHashIdx, hc, if_false, List.length_cons]
      have hrest : ∃ c' ∈ rest, c'.hash = x := by
        rcases h with ⟨c', hm, he⟩
        rcases List.mem_cons.mp hm with h1 | h1
        · exact absurd (h1 ▸ he) hc
        · exact ⟨c', h1, he⟩
      exact Nat.succ_lt_succ (ih hrest)

theorem firstHashIdx_get {x : Str} {l : List Commit}
    (h : ∃ c ∈ l, c.hash = x) (hlt : firstHashIdx x l < l.length) :
    (l.get ⟨firstHashIdx x l, hlt⟩).hash = x := by
  induction l with
  | nil => simp at h
  | cons c rest ih =>
    by_cases hc : c.hash = x
    · simp [firstHashIdx, hc]
    · have hrest : ∃ c' ∈ rest, c'.hash = x := by
        rcases h with ⟨c', hm, he⟩
        rcases List.mem_cons.mp hm with h1 | h1
        · exact absurd (h1 ▸ he) hc
        · exact ⟨c', h1, he⟩
      have hlt' : firstHashIdx x rest < rest.length := firstHashIdx_lt_length hrest
      have := ih hrest hlt'
      simpa [firstHashIdx, hc] using this

theorem firstHashIdx_le {x : Str} {l : List Commit} {j : Nat} (hj : j < l.length)
    (h : (l.get ⟨j, hj⟩).hash = x) : firstHashIdx x l ≤ j := by
  induction l generalizing j with
  | nil => simp at hj
  | cons c rest ih =>
    by_cases hc : c.hash = x
    · simp [firstHashIdx, hc]
    · cases j with
      | zero => simp at h; exact absurd h hc
      | succ j' =>
        simp only [firstHashIdx, hc, if_false]
        have hj' : j' < rest.length := Nat.lt_of_succ_lt_succ hj
        exact Nat.succ_le_succ (ih hj' (by simpa using h))

/-- The final `commit_defs` maps an occurring hash to the identifier assigned
at the *last* write of the oldest-first pass, which is the record appearing
first in the input sequence. -/
theorem cdsAux_lookup_firstIdx {x : Str} (commits : List Commit)
    (h : ∃ c ∈ commits, c.hash = x) :
    ∀ idx cds, dictLookup (cdsAux commits.reverse idx cds) x =
      some (NodeId.commit (idx + commits.length - firstHashIdx x commits)) := by
  induction commits with
  | nil => simp at h
  | cons c rest ih =>
    intro idx cds
    have hrev : (c :: rest).reverse = rest.reverse ++ [c] := by simp
    rw [hrev, cdsAux_append]
    simp only [cdsAux]
    rw [dictLookup_insert]
    by_cases hc : c.hash = x
    · have hx : x = c.hash := hc.symm
      rw [if_pos hx]
      have h0 : firstHashIdx x (c :: rest) = 0 := by simp [firstHashIdx, hc]
      rw [h0]
      simp only [Option.some.injEq, NodeId.commit.injEq, List.length_reverse, List.length_cons]
      omega
    · have hx : ¬ x = c.hash := fun he => hc he.symm
      rw [if_neg hx]
      have hrest : ∃ c' ∈ rest, c'.hash = x := by
        rcases h with ⟨c', hm, he⟩
        rcases List.mem_cons.mp hm with h1 | h1
        · exact absurd (h1 ▸ he) hc
        · exact ⟨c', h1, he⟩
      rw [ih hrest idx cds]
      have h0 : firstHashIdx x (c :: rest) = firstHashIdx x rest + 1 := by
        simp [firstHashIdx, hc]
      have hlt := firstHashIdx_lt_length hrest
      simp only [Option.some.injEq, NodeId.commit.injEq, h0, List.length_cons]
      omega

theorem commitDefs_lookup_firstIdx {x : Str} {commits : List Commit}
    (h : ∃ c ∈ commits, c.hash = x) :
    dictLookup (commitDefsOf commits) x =
      some (NodeId.commit (commits.length - firstHashIdx x commits)) := by
  have := cdsAux_lookup_firstIdx commits h 0 []
  simpa [commitDefsOf, buildNodes_cds] using this

theorem commitDefs_lookup_absent {x : Str} {commits : List Commit}
    (h : ¬ ∃ c ∈ commits, c.hash = x) :
    dictLookup (commitDefsOf commits) x = none := by
  have hall : ∀ c ∈ commits.reverse, c.hash ≠ x := by
    intro c hc he
    exact h ⟨c, List.mem_reverse.mp hc, he⟩
  have h2 := cdsAux_lookup_notMem commits.reverse hall 0 []
  rw [commitDefsOf, buildNodes_cds, h2]
  rfl

theorem commitDefs_lookup_isSome {x : Str} {commits : List Commit} :
    (dictLookup (commitDefsOf commits) x).isSome ↔ ∃ c ∈ commits, c.hash = x := by
  constructor
  · intro h
    by_contra hn
    rw [commitDefs_lookup_absent hn] at h
    simp at h
  · intro h
    rw [commitDefs_lookup_firstIdx h]
    rfl

/-! ### Shape and counting lemmas for the emitted lines -/

theorem addFiles_shape (cid : NodeId) (fs : List Str) :
    ∀ fds g, g ∈ (addFiles cid fs fds).1 →
      (∃ p i, g = GLine.fileDecl p i) ∨ (∃ a b, g = GLine.touched a b) := by
  induction fs with
  | nil => intro fds g hg; simp [addFiles] at hg
  | cons p rest ih =>
    intro fds g hg
    cases h : dictLookup fds p with
    | some fid =>
      rcases h2 : addFiles cid rest fds with ⟨ls, fds'⟩
      rw [addFiles, h, h2] at hg
      rcases List.mem_cons.mp hg with h3 | h3
      · exact Or.inr ⟨cid, fid, h3⟩
      · have := ih fds g
        rw [h2] at this
        exact this h3
    | none =>
      rcases h2 : addFiles cid rest (dictInsert fds p (NodeId.file (fds.length + 1)))
        with ⟨ls, fds'⟩
      rw [addFiles, h] at hg
      simp only [h2] at hg
      rcases List.mem_cons.mp hg with h3 | h3
      · exact Or.inl ⟨p, NodeId.file (fds.length + 1), h3⟩
      · rcases List.mem_cons.mp h3 with h4 | h4
        · exact Or.inr ⟨cid, NodeId.file (fds.length + 1), h4⟩
        · have := ih (dictInsert fds p (NodeId.file (fds.length + 1))) g
          rw [h2] at this
          exact this h4

theorem buildNodes_shape (l : List Commit) :
    ∀ idx cds fds g, g ∈ (buildNodes l idx cds fds).1 →
      (∃ m i, g = GLine.commitDecl m i) ∨ (∃ p i, g = GLine.fileDecl p i) ∨
        (∃ a b, g = GLine.touched a b) := by
  induction l with
  | nil => intro idx cds fds g hg; simp [buildNodes] at hg
  | cons c rest ih =>
    intro idx cds fds g hg
    rcases h1 : addFiles (NodeId.commit (idx + 1)) c.files fds with ⟨fLines, fds'⟩
    rcases h2 : buildNodes rest (idx + 1) (dictInsert cds c.hash (NodeId.commit (idx + 1))) fds'
      with ⟨ls, cds', fds''⟩
    rw [buildNodes, h1] at hg
    simp only [h2] at hg
    rcases List.mem_cons.mp hg with h3 | h3
    · exact Or.inl ⟨c.message, NodeId.commit (idx + 1), h3⟩
    · rcases List.mem_append.mp h3 with h4 | h4
      · have := addFiles_shape (NodeId.commit (idx + 1)) c.files fds g
        rw [h1] at this
        rcases this h4 with h5 | h5
        · exact Or.inr (Or.inl h5)
        · exact Or.inr (Or.inr h5)
      · have := ih (idx + 1) (dictInsert cds c.hash (NodeId.commit (idx + 1))) fds' g
        rw [h2] at this
        exact this h4

theorem parentEdges_shape {cds : List (Str × NodeId)} {ch : NodeId} (ps : List Str) :
    ∀ g ∈ parentEdges cds ch ps, ∃ a b, g = GLine.derives a b := by
  induction ps with
  | nil => intro g hg; simp [parentEdges] at hg
  | cons p rest ih =>
    intro g hg
    cases h : dictLookup cds p with
    | some pid =>
      rw [parentEdges, h] at hg
      rcases List.mem_cons.mp hg with h3 | h3
      · exact ⟨pid, ch, h3⟩
      · exact ih g h3
    | none =>
      rw [parentEdges, h] at hg
      exact ih g hg

theorem buildDerives_shape {cds : List (Str × NodeId)} (l : List Commit) :
    ∀ g ∈ buildDerives cds l, ∃ a b, g = GLine.derives a b := by
  induction l with
  | nil => intro g hg; simp [buildDerives] at hg
  | cons c rest ih =>
    intro g hg
    rw [buildDerives] at hg
    rcases List.mem_append.mp hg with h | h
    · exact parentEdges_shape c.parents g h
    · exact ih g h

theorem countCommitDecl_addFiles (cid : NodeId) (fs : List Str) (fds : List (Str × NodeId)) :
    countCommitDecl (addFiles cid fs fds).1 = 0 := by
  rw [countCommitDecl, List.countP_eq_zero]
  intro g hg
  rcases addFiles_shape cid fs fds g hg with ⟨p, i, rfl⟩ | ⟨a, b, rfl⟩ <;> simp [isCommitDecl]

theorem countCommitDecl_buildDerives (cds : List (Str × NodeId)) (l : List Commit) :
    countCommitDecl (buildDerives cds l) = 0 := by
  rw [countCommitDecl, List.countP_eq_zero]
  intro g hg
  rcases buildDerives_shape l g hg with ⟨a, b, rfl⟩
  simp [isCommitDecl]

theorem countCommitDecl_buildNodes (l : List Commit) :
    ∀ idx cds fds, countCommitDecl (buildNodes l idx cds fds).1 = l.length := by
  induction l with
  | nil => intro idx cds fds; rfl
  | cons c rest ih =>
    intro idx cds fds
    rcases h1 : addFiles (NodeId.commit (idx + 1)) c.files fds with ⟨fLines, fds'⟩
    rcases h2 : buildNodes rest (idx + 1) (dictInsert cds c.hash (NodeId.commit (idx + 1))) fds'
      with ⟨ls, cds', fds''⟩
    have h3 := ih (idx + 1) (dictInsert cds c.hash (NodeId.commit (idx + 1))) fds'
    rw [h2] at h3
    have h4 := countCommitDecl_addFiles (NodeId.commit (idx + 1)) c.files fds
    rw [h1] at h4
    rw [buildNodes, h1]
    simp only [h2]
    simp only [countCommitDecl, List.countP_cons, List.countP_append] at h3 h4 ⊢
    simp [isCommitDecl, h3, h4]
    omega

/-! ### Claim theorems: parser error handling and the worked scenario -/

/-- C1, amended statement: when a non-empty file-path line (no `'|'`) appears
before any header line, the parse *fails*: the loop hits
`current_commit['files']` with `current_commit = None` and raises, returning
no commit sequence at all (the spec's "discard the line, do not fail the whole
parse" policy is not what the code does). -/
theorem orphan_file_line_fails :
    ∀ (pre : List Str) (l : Str) (rest : List Str),
      (∀ x ∈ pre, '|' ∉ x) → l ≠ [] → '|' ∉ l →
      getCommitsLoop none [] (pre ++ l :: rest) = none := by
  intro pre
  induction pre with
  | nil =>
    intro l rest _ hne hl
    simp only [List.nil_append, getCommitsLoop]
    rw [if_neg hne, if_neg hl]
  | cons x pre' ih =>
    intro l rest hpre hne hl
    have hx : '|' ∉ x := hpre x (List.mem_cons_self x pre')
    have hpre' : ∀ y ∈ pre', '|' ∉ y := fun y hy => hpre y (List.mem_cons_of_mem x hy)
    by_cases hxe : x = []
    · subst hxe
      simp only [List.cons_append, getCommitsLoop, if_pos rfl]
      exact ih l rest hpre' hne hl
    · simp only [List.cons_append, getCommitsLoop]
      rw [if_neg hxe, if_neg hx]

/-- C1 witness: the single orphan line `file1.txt` makes the loop fail. -/
theorem orphan_file_line_fails_witness :
    ("file1.txt".toList ≠ [] ∧ '|' ∉ "file1.txt".toList) ∧
      getCommitsLoop none [] ([] ++ "file1.txt".toList :: []) = none :=
  ⟨⟨by decide, by decide⟩,
    orphan_file_line_fails [] ("file1.txt".toList) [] (by simp) (by decide) (by decide)⟩

/-- C1 counterexample to the claim as stated: on the input text `file1.txt`
(an orphan file-path line) the parser does not return a commit sequence. -/
theorem orphan_file_line_cex : get_commits ("file1.txt".toList) = none := by decide

/-- C2 counterexample to the claim as stated: for the scenario input the
record `a1` appears *first* in the text, so the reverse iteration of
`build_graph` visits `a2` first; `a1`'s commit node is **not** assigned the
first identifier. -/
theorem scenario_claim_cex :
    get_commits scenarioInput = some
      [⟨"a1".toList, "Initial commit".toList, [], ["file1.txt".toList]⟩,
       ⟨"a2".toList, "Add feature".toList, ["a1".toList],
         ["file2.txt".toList, "file1.txt".toList]⟩] ∧
    GLine.commitDecl "Initial commit".toList (NodeId.commit 1) ∉
      build_graph
        [⟨"a1".toList, "Initial commit".toList, [], ["file1.txt".toList]⟩,
         ⟨"a2".toList, "Add feature".toList, ["a1".toList],
           ["file2.txt".toList, "file1.txt".toList]⟩] :=
  ⟨by decide, by decide⟩

/-- C2, amended statement: for the scenario input, parsing yields the two
records in text order (`a1` then `a2`), and the builder — iterating in
reverse — assigns `a2` the first commit identifier and `a1` the second,
assigns `file2.txt` the first file identifier and `file1.txt` the second,
emits the touched edges `a2→file2.txt`, `a2→file1.txt`, `a1→file1.txt` in that
order, and exactly one derives edge, from `a1`'s node to `a2`'s node. -/
theorem scenario_actual_graph :
    get_commits scenarioInput = some
      [⟨"a1".toList, "Initial commit".toList, [], ["file1.txt".toList]⟩,
       ⟨"a2".toList, "Add feature".toList, ["a1".toList],
         ["file2.txt".toList, "file1.txt".toList]⟩] ∧
    build_graph
        [⟨"a1".toList, "Initial commit".toList, [], ["file1.txt".toList]⟩,
         ⟨"a2".toList, "Add feature".toList, ["a1".toList],
           ["file2.txt".toList, "file1.txt".toList]⟩] =
      preambleLines ++
        [GLine.commitDecl "Add feature".toList (NodeId.commit 1),
         GLine.fileDecl "file2.txt".toList (NodeId.file 1),
         GLine.touched (NodeId.commit 1) (NodeId.file 1),
         GLine.fileDecl "file1.txt".toList (NodeId.file 2),
         GLine.touched (NodeId.commit 1) (NodeId.file 2),
         GLine.commitDecl "Initial commit".toList (NodeId.commit 2),
         GLine.touched (NodeId.commit 2) (NodeId.file 2),
         GLine.derives (NodeId.commit 2) (NodeId.commit 1),
         GLine.text "@enduml".toList] :=
  ⟨by decide, by decide⟩

/-- C5: the number of commit-node declarations in the built graph equals the
number of records, duplicates included — one `rectangle … as Commit(idx+1)`
line per record, with no merging. -/
theorem commit_decl_count_eq_length (commits : List Commit) :
    countCommitDecl (build_graph commits) = commits.length := by
  rcases h : buildNodes commits.reverse 0 [] [] with ⟨nodeLines, cds, fds⟩
  have h1 := countCommitDecl_buildNodes commits.reverse 0 [] []
  rw [h] at h1
  have h2 := countCommitDecl_buildDerives cds commits.reverse
  simp only [build_graph, h]
  simp only [countCommitDecl, List.countP_append] at h1 h2 ⊢
  have hp : List.countP isCommitDecl preambleLines = 0 := rfl
  have he : List.countP isCommitDecl [GLine.text "@enduml".toList] = 0 := rfl
  rw [hp, h1, h2, he, List.length_reverse]
  omega

/-- C8: empty input parses to the empty record list without failing, and the
built graph has zero commit nodes, zero file nodes, zero touched edges and
zero derives edges: only the fixed wrapper (start marker, styling block, end
marker) remains. -/
theorem empty_input_empty_graph :
    get_commits [] = some [] ∧
    build_graph [] =
      [GLine.text "@startuml".toList, GLine.text "skinparam rectangle \x7b".toList,
       GLine.text "   BackgroundColor #FDF6E3".toList, GLine.text "\x7d".toList,
       GLine.text "@enduml".toList] ∧
    countCommitDecl (build_graph []) = 0 ∧
    (∀ p, countFileDecl p (build_graph []) = 0) ∧
    (∀ fid, countTouchedTo fid (build_graph []) = 0) ∧
    (∀ a b, GLine.derives a b ∉ build_graph []) := by
  refine ⟨rfl, rfl, rfl, fun p => rfl, fun fid => rfl, fun a b h => ?_⟩
  have he : build_graph [] =
      [GLine.text "@startuml".toList, GLine.text "skinparam rectangle \x7b".toList,
       GLine.text "   BackgroundColor #FDF6E3".toList, GLine.text "\x7d".toList,
       GLine.text "@enduml".toList] := rfl
  rw [he] at h
  simp at h

/-- C9: the builder is a pure function of the input record sequence — the
model represents the Python dicts as insertion-ordered association lists and
uses no unordered iteration — so running it twice on the same sequence yields
the identical line list and the identical rendered text. -/
theorem build_graph_deterministic (commits : List Commit) :
    build_graph commits = build_graph commits ∧
      build_graph_str commits = build_graph_str commits :=
  ⟨rfl, rfl⟩

/-! ### Membership lemmas for the derives pass and the node pass -/

theorem parentEdges_mem_of {cds : List (Str × NodeId)} {ch : NodeId} {ps : List Str}
    {p : Str} {a : NodeId} (hp : p ∈ ps) (ha : dictLookup cds p = some a) :
    GLine.derives a ch ∈ parentEdges cds ch ps := by
  induction ps with
  | nil => simp at hp
  | cons q rest ih =>
    rcases List.mem_cons.mp hp with h | h
    · subst h
      rw [parentEdges, ha]
      exact List.mem_cons_self _ _
    · cases hq : dictLookup cds q with
      | some pid => rw [parentEdges, hq]; exact List.mem_cons_of_mem _ (ih h)
      | none => rw [parentEdges, hq]; exact ih h

theorem parentEdges_mem_elim {cds : List (Str × NodeId)} {ch : NodeId} {ps : List Str}
    {g : GLine} (hg : g ∈ parentEdges cds ch ps) :
    ∃ p ∈ ps, ∃ a, dictLookup cds p = some a ∧ g = GLine.derives a ch := by
  induction ps with
  | nil => simp [parentEdges] at hg
  | cons q rest ih =>
    cases hq : dictLookup cds q with
    | some pid =>
      rw [parentEdges, hq] at hg
      rcases List.mem_cons.mp hg with h | h
      · exact ⟨q, List.mem_cons_self q rest, pid, hq, h⟩
      · rcases ih h with ⟨p, hp, a, ha, he⟩
        exact ⟨p, List.mem_cons_of_mem _ hp, a, ha, he⟩
    | none =>
      rw [parentEdges, hq] at hg
      rcases ih hg with ⟨p, hp, a, ha, he⟩
      exact ⟨p, List.mem_cons_of_mem _ hp, a, ha, he⟩

theorem buildDerives_mem_of {cds : List (Str × NodeId)} {l : List Commit} {c : Commit}
    {p : Str} {a : NodeId} (hc : c ∈ l) (hp : p ∈ c.parents)
    (ha : dictLookup cds p = some a) :
    GLine.derives a (childIdIn cds c) ∈ buildDerives cds l := by
  induction l with
  | nil => simp at hc
  | cons c0 rest ih =>
    rcases List.mem_cons.mp hc with h | h
    · subst h
      exact List.mem_append_left _ (parentEdges_mem_of hp ha)
    · exact List.mem_append_right _ (ih h)

theorem buildDerives_mem_elim {cds : List (Str × NodeId)} {l : List Commit} {g : GLine}
    (hg : g ∈ buildDerives cds l) :
    ∃ c ∈ l, ∃ p ∈ c.parents, ∃ a, dictLookup cds p = some a ∧
      g = GLine.derives a (childIdIn cds c) := by
  induction l with
  | nil => simp [buildDerives] at hg
  | cons c0 rest ih =>
    rw [buildDerives] at hg
    rcases List.mem_append.mp hg with h | h
    · rcases parentEdges_mem_elim h with ⟨p, hp, a, ha, he⟩
      exact ⟨c0, List.mem_cons_self c0 rest, p, hp, a, ha, he⟩
    · rcases ih h with ⟨c, hc, p, hp, a, ha, he⟩
      exact ⟨c, List.mem_cons_of_mem _ hc, p, hp, a, ha, he⟩

theorem addFiles_touched_mem (cid : NodeId) {fs : List Str} {f : Str} (hf : f ∈ fs) :
    ∀ fds, ∃ fid, GLine.touched cid fid ∈ (addFiles cid fs fds).1 := by
  induction fs with
  | nil => simp at hf
  | cons p rest ih =>
    intro fds
    rcases List.mem_cons.mp hf with h | h
    · subst h
      cases hq : dictLookup fds f with
      | some fid =>
        rcases h2 : addFiles cid rest fds with ⟨ls, fds'⟩
        exact ⟨fid, by rw [addFiles, hq, h2]; exact List.mem_cons_self _ _⟩
      | none =>
        rcases h2 : addFiles cid rest (dictInsert fds f (NodeId.file (fds.length + 1)))
          with ⟨ls, fds'⟩
        refine ⟨NodeId.file (fds.length + 1), ?_⟩
        rw [addFiles, hq]
        simp only [h2]
        exact List.mem_cons_of_mem _ (List.mem_cons_self _ _)
    · cases hq : dictLookup fds p with
      | some fid =>
        rcases h2 : addFiles cid rest fds with ⟨ls, fds'⟩
        rcases ih h fds with ⟨fid', hmem⟩
        rw [h2] at hmem
        exact ⟨fid', by rw [addFiles, hq, h2]; exact List.mem_cons_of_mem _ hmem⟩
      | none =>
        rcases h2 : addFiles cid rest (dictInsert fds p (NodeId.file (fds.length + 1)))
          with ⟨ls, fds'⟩
        rcases ih h (dictInsert fds p (NodeId.file (fds.length + 1))) with ⟨fid', hmem⟩
        rw [h2] at hmem
        refine ⟨fid', ?_⟩
        rw [addFiles, hq]
        simp only [h2]
        exact List.mem_cons_of_mem _ (List.mem_cons_of_mem _ hmem)

theorem buildNodes_commit_block {l : List Commit} {c : Commit} (hc : c ∈ l) :
    ∀ idx cds fds, ∃ k,
      GLine.commitDecl c.message (NodeId.commit k) ∈ (buildNodes l idx cds fds).1 ∧
      ∀ f ∈ c.files, ∃ fid, GLine.touched (NodeId.commit k) fid ∈ (buildNodes l idx cds fds).1 := by
  induction l with
  | nil => simp at hc
  | cons c0 rest ih =>
    intro idx cds fds
    rcases h1 : addFiles (NodeId.commit (idx + 1)) c0.files fds with ⟨fLines, fds'⟩
    rcases h2 : buildNodes rest (idx + 1) (dictInsert cds c0.hash (NodeId.commit (idx + 1))) fds'
      with ⟨ls, cds', fds''⟩
    rcases List.mem_cons.mp hc with h | h
    · subst h
      refine ⟨idx + 1, ?_, ?_⟩
      · rw [buildNodes, h1]
        simp only [h2]
        exact List.mem_cons_self _ _
      · intro f hf
        rcases addFiles_touched_mem (NodeId.commit (idx + 1)) hf fds with ⟨fid, hmem⟩
        rw [h1] at hmem
        refine ⟨fid, ?_⟩
        rw [buildNodes, h1]
        simp only [h2]
        exact List.mem_cons_of_mem _ (List.mem_append_left _ hmem)
    · rcases ih h (idx + 1) (dictInsert cds c0.hash (NodeId.commit (idx + 1))) fds'
        with ⟨k, hdecl, htouch⟩
      rw [h2] at hdecl htouch
      refine ⟨k, ?_, ?_⟩
      · rw [buildNodes, h1]
        simp only [h2]
        exact List.mem_cons_of_mem _ (List.mem_append_right _ hdecl)
      · intro f hf
        rcases htouch f hf with ⟨fid, hmem⟩
        refine ⟨fid, ?_⟩
        rw [buildNodes, h1]
        simp only [h2]
        exact List.mem_cons_of_mem _ (List.mem_append_right _ hmem)

theorem mem_build_graph_of_nodes {commits : List Commit} {g : GLine}
    (h : g ∈ (buildNodes commits.reverse 0 [] []).1) : g ∈ build_graph commits := by
  rcases he : buildNodes commits.reverse 0 [] [] with ⟨nl, cds, fds⟩
  rw [he] at h
  simp only [build_graph, he, List.mem_append]
  tauto

theorem mem_build_graph_of_derives {commits : List Commit} {g : GLine}
    (h : g ∈ buildDerives (commitDefsOf commits) commits.reverse) :
    g ∈ build_graph commits := by
  rcases he : buildNodes commits.reverse 0 [] [] with ⟨nl, cds, fds⟩
  have hc : commitDefsOf commits = cds := by rw [commitDefsOf, he]
  rw [hc] at h
  simp only [build_graph, he, List.mem_append]
  tauto

theorem derives_mem_build_graph_elim {commits : List Commit} {a b : NodeId}
    (h : GLine.derives a b ∈ build_graph commits) :
    GLine.derives a b ∈ buildDerives (commitDefsOf commits) commits.reverse := by
  rcases he : buildNodes commits.reverse 0 [] [] with ⟨nl, cds, fds⟩
  have hc : commitDefsOf commits = cds := by rw [commitDefsOf, he]
  simp only [build_graph, he, List.mem_append] at h
  rcases h with ((h | h) | h) | h
  · simp [preambleLines] at h
  · have := buildNodes_shape commits.reverse 0 [] [] (GLine.derives a b)
    rw [he] at this
    rcases this h with ⟨m, i, he2⟩ | ⟨p, i, he2⟩ | ⟨x, y, he2⟩ <;> simp at he2
  · rw [hc]; exact h
  · simp at h

/-- C3: for every commit sequence, a derives edge for a parent entry `p` of a
record `c` is present in the built graph exactly when `p` is the hash of some
record of the sequence; and independently of that, `c`'s commit node
declaration and one touched edge per file of `c` always appear. -/
theorem derives_edge_iff_parent_known (commits : List Commit) (c : Commit) (p : Str)
    (hc : c ∈ commits) (hp : p ∈ c.parents) :
    ((∃ c' ∈ commits, c'.hash = p) ↔
      ∃ a, dictLookup (commitDefsOf commits) p = some a ∧
        GLine.derives a (childIdIn (commitDefsOf commits) c) ∈ build_graph commits) ∧
    ∃ k, GLine.commitDecl c.message (NodeId.commit k) ∈ build_graph commits ∧
      ∀ f ∈ c.files, ∃ fid, GLine.touched (NodeId.commit k) fid ∈ build_graph commits := by
  constructor
  · constructor
    · intro h
      have hs : (dictLookup (commitDefsOf commits) p).isSome :=
        commitDefs_lookup_isSome.mpr h
      rcases Option.isSome_iff_exists.mp hs with ⟨a, ha⟩
      refine ⟨a, ha, ?_⟩
      exact mem_build_graph_of_derives
        (buildDerives_mem_of (List.mem_reverse.mpr hc) hp ha)
    · rintro ⟨a, ha, _⟩
      exact commitDefs_lookup_isSome.mp (by rw [ha]; rfl)
  · rcases buildNodes_commit_block (List.mem_reverse.mpr hc) 0 [] [] with ⟨k, hdecl, htouch⟩
    refine ⟨k, mem_build_graph_of_nodes hdecl, ?_⟩
    intro f hf
    rcases htouch f hf with ⟨fid, hmem⟩
    exact ⟨fid, mem_build_graph_of_nodes hmem⟩

/-- C3 witness: in the two-record sequence `[wB, wA]` the parent `a1` of `wB`
is the hash of `wA`, so the derives edge is present, and `wB`'s node and
touched edge appear. -/
theorem derives_edge_iff_parent_known_witness :
    (wB ∈ wCommits ∧ "a1".toList ∈ wB.parents) ∧
    (((∃ c' ∈ wCommits, c'.hash = "a1".toList) ↔
      ∃ a, dictLookup (commitDefsOf wCommits) "a1".toList = some a ∧
        GLine.derives a (childIdIn (commitDefsOf wCommits) wB) ∈ build_graph wCommits) ∧
     ∃ k, GLine.commitDecl wB.message (NodeId.commit k) ∈ build_graph wCommits ∧
       ∀ f ∈ wB.files, ∃ fid, GLine.touched (NodeId.commit k) fid ∈ build_graph wCommits) :=
  ⟨⟨by decide, by decide⟩,
    derives_edge_iff_parent_known wCommits wB ("a1".toList) (by decide) (by decide)⟩

/-! ### Every derives endpoint is a final `commit_defs` value -/

theorem derives_endpoints_in_range {commits : List Commit} {a b : NodeId}
    (h : GLine.derives a b ∈ build_graph commits) :
    (∃ x, dictLookup (commitDefsOf commits) x = some a) ∧
    (∃ y, dictLookup (commitDefsOf commits) y = some b) := by
  have h1 := derives_mem_build_graph_elim h
  rcases buildDerives_mem_elim h1 with ⟨c, hc, p, hp, a', ha', he⟩
  have hcm : c ∈ commits := List.mem_reverse.mp hc
  injection he with he1 he2
  subst he1
  subst he2
  constructor
  · exact ⟨p, ha'.symm ▸ ha'⟩
  · have hs : (dictLookup (commitDefsOf commits) c.hash).isSome :=
      commitDefs_lookup_isSome.mpr ⟨c, hcm, rfl⟩
    rcases Option.isSome_iff_exists.mp hs with ⟨v, hv⟩
    refine ⟨c.hash, ?_⟩
    rw [hv, childIdIn, hv]
    rfl

theorem commitDefs_value_form {commits : List Commit} {x : Str} {v : NodeId}
    (h : dictLookup (commitDefsOf commits) x = some v) :
    (∃ c ∈ commits, c.hash = x) ∧
      v = NodeId.commit (commits.length - firstHashIdx x commits) := by
  have hs : (dictLookup (commitDefsOf commits) x).isSome := by rw [h]; rfl
  have hex := commitDefs_lookup_isSome.mp hs
  refine ⟨hex, ?_⟩
  have := commitDefs_lookup_firstIdx hex
  rw [h] at this
  injection this

/-- C10: when a hash occurs on two or more records, the final `commit_defs`
entry for it — the one every derives edge resolves through — carries the node
identifier of the record appearing *first* in the input sequence (the
duplicate written last in the oldest-first pass), and the node of any later
duplicate (input index `i`, node `Commit(n-i)`) is never an endpoint of any
derives edge. -/
theorem duplicate_hash_edges_resolve_first (commits : List Commit) (i j : Nat)
    (hi : i < commits.length) (hj : j < commits.length) (hji : j < i)
    (hdup : (commits.get ⟨j, hj⟩).hash = (commits.get ⟨i, hi⟩).hash) :
    dictLookup (commitDefsOf commits) (commits.get ⟨i, hi⟩).hash =
      some (NodeId.commit
        (commits.length - firstHashIdx (commits.get ⟨i, hi⟩).hash commits)) ∧
    firstHashIdx (commits.get ⟨i, hi⟩).hash commits ≤ j ∧
    ∀ a b, GLine.derives a b ∈ build_graph commits →
      a ≠ NodeId.commit (commits.length - i) ∧ b ≠ NodeId.commit (commits.length - i) := by
  have hx : ∃ c ∈ commits, c.hash = (commits.get ⟨i, hi⟩).hash :=
    ⟨commits.get ⟨i, hi⟩, List.get_mem commits i hi, rfl⟩
  have hfle : firstHashIdx (commits.get ⟨i, hi⟩).hash commits ≤ j := firstHashIdx_le hj hdup
  refine ⟨commitDefs_lookup_firstIdx hx, hfle, ?_⟩
  intro a b hmem
  have hrange := derives_endpoints_in_range hmem
  constructor
  · intro hcontra
    rcases hrange.1 with ⟨x, hxa⟩
    rcases commitDefs_value_form hxa with ⟨hocc, hform⟩
    rw [hcontra] at hform
    have hlt := firstHashIdx_lt_length hocc
    have heq : firstHashIdx x commits = i := by
      injection hform with hf
      omega
    have hxg := firstHashIdx_get hocc hlt
    have hfin : (⟨firstHashIdx x commits, hlt⟩ : Fin commits.length) = ⟨i, hi⟩ :=
      Fin.mk_eq_mk.mpr heq
    rw [hfin] at hxg
    subst hxg
    omega
  · intro hcontra
    rcases hrange.2 with ⟨y, hyb⟩
    rcases commitDefs_value_form hyb with ⟨hocc, hform⟩
    rw [hcontra] at hform
    have hlt := firstHashIdx_lt_length hocc
    have heq : firstHashIdx y commits = i := by
      injection hform with hf
      omega
    have hyg := firstHashIdx_get hocc hlt
    have hfin : (⟨firstHashIdx y commits, hlt⟩ : Fin commits.length) = ⟨i, hi⟩ :=
      Fin.mk_eq_mk.mpr heq
    rw [hfin] at hyg
    subst hyg
    omega

/-! ### Header splitting lemmas -/

theorem splitFirstBar_append (t : Str) :
    ∀ h : Str, '|' ∉ h → splitFirstBar (h ++ '|' :: t) = some (h, t) := by
  intro h
  induction h with
  | nil => intro _; simp [splitFirstBar]
  | cons c cs ih =>
    intro hh
    have hc : ¬ c = '|' := fun he => hh (he ▸ List.mem_cons_self c cs)
    have hcs : '|' ∉ cs := fun hmem => hh (List.mem_cons_of_mem c hmem)
    simp [splitFirstBar, hc, ih hcs]

theorem splitFirstBar_none : ∀ s : Str, '|' ∉ s → splitFirstBar s = none := by
  intro s
  induction s with
  | nil => intro _; rfl
  | cons c cs ih =>
    intro hs
    have hc : ¬ c = '|' := fun he => hs (he ▸ List.mem_cons_self c cs)
    have hcs : '|' ∉ cs := fun hmem => hs (List.mem_cons_of_mem c hmem)
    simp [splitFirstBar, hc, ih hcs]

/-- A line with exactly one separator splits into two parts and the source's
`(*parts, '')` adjustment supplies an empty third field. -/
theorem splitHeader_two {h m : Str} (hh : '|' ∉ h) (hm : '|' ∉ m) :
    splitHeader (h ++ '|' :: m) = (h, m, []) := by
  simp [splitHeader, splitFirstBar_append m h hh, splitFirstBar_none m hm]

/-- The bounded split: at most two separators are consumed, the third field
absorbs everything after them, separators included. -/
theorem splitHeader_three {h m : Str} (p : Str) (hh : '|' ∉ h) (hm : '|' ∉ m) :
    splitHeader (h ++ '|' :: (m ++ '|' :: p)) = (h, m, p) := by
  simp [splitHeader, splitFirstBar_append (m ++ '|' :: p) h hh, splitFirstBar_append p m hm]

theorem parseHeaderFields_two {h m : Str} (hh : '|' ∉ h) (hm : '|' ∉ m) :
    parseHeaderFields (h ++ '|' :: m) = (h, m, []) := by
  simp only [parseHeaderFields, splitHeader_two hh hm]
  rfl

/-! ### Python whitespace split of a single-space join -/

theorem pySplitWsAux_word :
    ∀ w : Str, (∀ c ∈ w, isPySpace c = false) →
      ∀ cur t, pySplitWsAux cur (w ++ t) = pySplitWsAux (w.reverse ++ cur) t := by
  intro w
  induction w with
  | nil => intro _ cur t; simp
  | cons c cs ih =>
    intro hw cur t
    have hc : isPySpace c = false := hw c (List.mem_cons_self c cs)
    have hcs : ∀ x ∈ cs, isPySpace x = false := fun x hx => hw x (List.mem_cons_of_mem c hx)
    simp only [List.cons_append, pySplitWsAux, hc, Bool.false_eq_true, if_false, List.append_eq]
    rw [ih hcs]
    simp

theorem spaceJoin_ne_nil : ∀ ws : List Str, ws ≠ [] → (∀ w ∈ ws, w ≠ []) →
    spaceJoin ws ≠ [] := by
  intro ws hne hws
  match ws with
  | [w] =>
    have := hws w (List.mem_cons_self w [])
    simpa [spaceJoin] using this
  | w :: w2 :: ws'' =>
    show w ++ ' ' :: spaceJoin (w2 :: ws'') ≠ []
    simp

theorem pySplitWs_spaceJoin :
    ∀ ws : List Str, (∀ w ∈ ws, w ≠ [] ∧ ∀ c ∈ w, isPySpace c = false) →
      pySplitWs (spaceJoin ws) = ws := by
  intro ws
  induction ws with
  | nil => intro _; rfl
  | cons w ws' ih =>
    intro hws
    obtain ⟨hwne, hwns⟩ := hws w (List.mem_cons_self w ws')
    have hws' : ∀ x ∈ ws', x ≠ [] ∧ ∀ c ∈ x, isPySpace c = false :=
      fun x hx => hws x (List.mem_cons_of_mem w hx)
    cases ws' with
    | nil =>
      show pySplitWsAux [] (spaceJoin [w]) = [w]
      have hstep := pySplitWsAux_word w hwns [] []
      rw [List.append_nil] at hstep
      show pySplitWsAux [] w = [w]
      rw [hstep, List.append_nil]
      have hrne : w.reverse ≠ [] := by simpa [List.reverse_eq_nil_iff] using hwne
      simp [pySplitWsAux, hrne]
    | cons w2 ws'' =>
      show pySplitWsAux [] (w ++ ' ' :: spaceJoin (w2 :: ws'')) = w :: w2 :: ws''
      rw [pySplitWsAux_word w hwns [] (' ' :: spaceJoin (w2 :: ws'')), List.append_nil]
      have hrne : w.reverse ≠ [] := by simpa [List.reverse_eq_nil_iff] using hwne
      have hsp : isPySpace ' ' = true := rfl
      simp only [pySplitWsAux, hsp, if_true, if_neg hrne, List.reverse_reverse]
      exact congrArg (w :: ·) (ih hws')

/-! ### `strip` is the identity on a single-space join of clean words -/

theorem pyStrip_eq_self {s : Str}
    (hhead : ∀ c, s.head? = some c → isPySpace c = false)
    (hlast : ∀ c, s.getLast? = some c → isPySpace c = false) : pyStrip s = s := by
  cases s with
  | nil => rfl
  | cons c cs =>
    have hc : isPySpace c = false := hhead c rfl
    have h1 : List.dropWhile isPySpace (c :: cs) = c :: cs := by
      rw [List.dropWhile_cons, hc]
      simp
    rw [pyStrip, h1]
    cases hr : (c :: cs).reverse with
    | nil => simp at hr
    | cons d r =>
      have hd : (c :: cs).getLast? = some d := by rw [← List.head?_reverse, hr]; rfl
      have hdns : isPySpace d = false := hlast d hd
      rw [List.dropWhile_cons, hdns]
      simp only [Bool.false_eq_true, if_false]
      rw [← hr, List.reverse_reverse]

theorem spaceJoin_head_nonspace :
    ∀ ws : List Str, (∀ w ∈ ws, w ≠ [] ∧ ∀ c ∈ w, isPySpace c = false) →
      ∀ c, (spaceJoin ws).head? = some c → isPySpace c = false := by
  intro ws hws c hc
  match ws with
  | [] => simp [spaceJoin] at hc
  | w :: ws' =>
    obtain ⟨hwne, hwns⟩ := hws w (List.mem_cons_self w ws')
    cases w with
    | nil => exact absurd rfl hwne
    | cons a as =>
      cases ws' with
      | nil =>
        have : a = c := by
          have : (spaceJoin [a :: as]).head? = some a := rfl
          rw [this] at hc
          injection hc
        exact this ▸ hwns a (List.mem_cons_self a as)
      | cons w2 ws'' =>
        have : a = c := by
          have h2 : (spaceJoin ((a :: as) :: w2 :: ws'')).head? = some a := rfl
          rw [h2] at hc
          injection hc
        exact this ▸ hwns a (List.mem_cons_self a as)

theorem spaceJoin_getLast_nonspace :
    ∀ ws : List Str, (∀ w ∈ ws, w ≠ [] ∧ ∀ c ∈ w, isPySpace c = false) →
      ∀ c, (spaceJoin ws).getLast? = some c → isPySpace c = false := by
  intro ws
  induction ws with
  | nil => intro _ c hc; simp [spaceJoin] at hc
  | cons w ws' ih =>
    intro hws c hc
    obtain ⟨hwne, hwns⟩ := hws w (List.mem_cons_self w ws')
    have hws' : ∀ x ∈ ws', x ≠ [] ∧ ∀ c ∈ x, isPySpace c = false :=
      fun x hx => hws x (List.mem_cons_of_mem w hx)
    cases ws' with
    | nil =>
      have hsj : spaceJoin [w] = w := rfl
      rw [hsj] at hc
      cases hr : w.reverse with
      | nil => exact absurd (List.reverse_eq_nil_iff.mp hr) hwne
      | cons d r =>
        have hd : w.getLast? = some d := by rw [← List.head?_reverse, hr]; rfl
        rw [hd] at hc
        injection hc with hdc
        have hmem : d ∈ w := List.mem_reverse.mp (hr ▸ List.mem_cons_self d r)
        exact hdc ▸ hwns d hmem
    | cons w2 ws'' =>
      have hsj : spaceJoin (w :: w2 :: ws'') = w ++ ' ' :: spaceJoin (w2 :: ws'') := rfl
      rw [hsj, List.getLast?_append] at hc
      have hne2 : spaceJoin (w2 :: ws'') ≠ [] :=
        spaceJoin_ne_nil (w2 :: ws'') (by simp) (fun x hx => (hws' x hx).1)
      have hco : (' ' :: spaceJoin (w2 :: ws'')).getLast? = (spaceJoin (w2 :: ws'')).getLast? := by
        have : ' ' :: spaceJoin (w2 :: ws'') = [' '] ++ spaceJoin (w2 :: ws'') := rfl
        rw [this, List.getLast?_append]
        cases hgl : (spaceJoin (w2 :: ws'')).getLast? with
        | none =>
          exact absurd (List.getLast?_eq_none_iff.mp hgl) hne2
        | some d => rfl
      rw [hco] at hc
      cases hgl : (spaceJoin (w2 :: ws'')).getLast? with
      | none => exact absurd (List.getLast?_eq_none_iff.mp hgl) hne2
      | some d =>
        rw [hgl] at hc
        have hdc : some d = some c := hc
        exact ih hws' c (by rw [hgl]; exact hdc)

theorem pyStrip_spaceJoin (ws : List Str)
    (hws : ∀ w ∈ ws, w ≠ [] ∧ ∀ c ∈ w, isPySpace c = false) :
    pyStrip (spaceJoin ws) = spaceJoin ws :=
  pyStrip_eq_self (spaceJoin_head_nonspace ws hws) (spaceJoin_getLast_nonspace ws hws)

/-- C7: a header line containing exactly one separator (`h|m` with `'|'` in
neither field) is parsed with the parent field treated as empty: the loop
produces the record `⟨h, m, [], []⟩`, neither dropping the commit nor
failing. -/
theorem single_separator_header_kept (h m : Str) (hh : '|' ∉ h) (hm : '|' ∉ m) :
    getCommitsLoop none [] [h ++ '|' :: m] = some [⟨h, m, [], []⟩] := by
  have hbar : '|' ∈ h ++ '|' :: m := List.mem_append_right h (List.mem_cons_self '|' m)
  have hne : h ++ '|' :: m ≠ [] := List.ne_nil_of_mem hbar
  simp only [getCommitsLoop, if_neg hne, if_pos hbar, parseHeaderFields_two hh hm,
    List.nil_append]

/-- C7 witness: the line `aa|bb` yields the record with hash `aa`, message
`bb`, no parents and no files. -/
theorem single_separator_header_kept_witness :
    ('|' ∉ "aa".toList ∧ '|' ∉ "bb".toList) ∧
      getCommitsLoop none [] ["aa".toList ++ '|' :: "bb".toList] =
        some [⟨"aa".toList, "bb".toList, [], []⟩] :=
  ⟨⟨by decide, by decide⟩,
    single_separator_header_kept ("aa".toList) ("bb".toList) (by decide) (by decide)⟩

/-- C6: for a header line `h|m|p1 p2 …` whose hash and message contain no
separator and whose parent field is the single-space join of non-empty,
whitespace-free words, the parser recovers exactly `(h, m, [p1, p2, …])`
— re-joining those fields reproduces the original three logical fields —
and, for *any* third field `p` whatsoever (separators included), the bounded
split consumes only the first two separators and leaves `p` intact. -/
theorem header_fields_round_trip (h m : Str) (ws : List Str)
    (hh : '|' ∉ h) (hm : '|' ∉ m)
    (hws : ∀ w ∈ ws, w ≠ [] ∧ ∀ c ∈ w, isPySpace c = false) :
    parseHeaderFields (h ++ '|' :: (m ++ '|' :: spaceJoin ws)) = (h, m, ws) ∧
    ∀ p : Str, splitHeader (h ++ '|' :: (m ++ '|' :: p)) = (h, m, p) := by
  constructor
  · simp only [parseHeaderFields, splitHeader_three (spaceJoin ws) hh hm]
    rw [pyStrip_spaceJoin ws hws, pySplitWs_spaceJoin ws hws]
  · intro p
    exact splitHeader_three p hh hm

/-- C6 witness: the header `h1|fix bug|p1 p2` parses back to its three
fields, and a third field containing further separators survives intact. -/
theorem header_fields_round_trip_witness :
    ('|' ∉ "h1".toList ∧ '|' ∉ "fix bug".toList ∧
      (∀ w ∈ [("p1".toList : Str), "p2".toList], w ≠ [] ∧ ∀ c ∈ w, isPySpace c = false)) ∧
    (parseHeaderFields ("h1".toList ++ '|' ::
        ("fix bug".toList ++ '|' :: spaceJoin ["p1".toList, "p2".toList])) =
      ("h1".toList, "fix bug".toList, ["p1".toList, "p2".toList]) ∧
     ∀ p : Str, splitHeader ("h1".toList ++ '|' :: ("fix bug".toList ++ '|' :: p)) =
        ("h1".toList, "fix bug".toList, p)) :=
  ⟨⟨by decide, by decide, by decide⟩,
    header_fields_round_trip ("h1".toList) ("fix bug".toList)
      (["p1".toList, "p2".toList]) (by decide) (by decide) (by decide)⟩

/-- C10 witness: in `wDups` both records carry hash `x`; the final mapping
resolves `x` to the first record's node, and the second record's node
`Commit(2-1) = Commit1` is no derives endpoint. -/
theorem duplicate_hash_edges_resolve_first_witness :
    (0 < 1 ∧ (wDups.get ⟨0, by decide⟩).hash = (wDups.get ⟨1, by decide⟩).hash) ∧
    (dictLookup (commitDefsOf wDups) (wDups.get ⟨1, by decide⟩).hash =
        some (NodeId.commit
          (wDups.length - firstHashIdx (wDups.get ⟨1, by decide⟩).hash wDups)) ∧
      firstHashIdx (wDups.get ⟨1, by decide⟩).hash wDups ≤ 0 ∧
      ∀ a b, GLine.derives a b ∈ build_graph wDups →
        a ≠ NodeId.commit (wDups.length - 1) ∧ b ≠ NodeId.commit (wDups.length - 1)) :=
  ⟨⟨by decide, by decide⟩,
    duplicate_hash_edges_resolve_first wDups 1 0 (by decide) (by decide) (by decide) (by decide)⟩

/-! ### The `file_defs` dict through the file loop -/

theorem addFiles_lookup_stable (cid : NodeId) {p : Str} {v : NodeId} :
    ∀ (fs : List Str) (fds : List (Str × NodeId)), dictLookup fds p = some v →
      dictLookup (addFiles cid fs fds).2 p = some v := by
  intro fs
  induction fs with
  | nil => intro fds h; exact h
  | cons f rest ih =>
    intro fds h
    cases hq : dictLookup fds f with
    | some fid =>
      rcases h2 : addFiles cid rest fds with ⟨ls, fds'⟩
      have := ih fds h
      rw [h2] at this
      rw [addFiles, hq, h2]
      exact this
    | none =>
      rcases h2 : addFiles cid rest (dictInsert fds f (NodeId.file (fds.length + 1)))
        with ⟨ls, fds'⟩
      have hpf : ¬ p = f := fun he => by rw [he, hq] at h; exact Option.noConfusion h
      have hins : dictLookup (dictInsert fds f (NodeId.file (fds.length + 1))) p = some v := by
        rw [dictLookup_insert, if_neg hpf]
        exact h
      have := ih (dictInsert fds f (NodeId.file (fds.length + 1))) hins
      rw [h2] at this
      rw [addFiles, hq]
      simp only [h2]
      exact this

theorem addFiles_lookup_isSome (cid : NodeId) (p : Str) :
    ∀ (fs : List Str) (fds : List (Str × NodeId)),
      (dictLookup (addFiles cid fs fds).2 p).isSome =
        ((dictLookup fds p).isSome || decide (p ∈ fs)) := by
  intro fs
  induction fs with
  | nil => intro fds; simp [addFiles]
  | cons f rest ih =>
    intro fds
    cases hq : dictLookup fds f with
    | some fid =>
      rcases h2 : addFiles cid rest fds with ⟨ls, fds'⟩
      have := ih fds
      rw [h2] at this
      rw [addFiles, hq, h2]
      rw [this]
      by_cases hpf : p = f
      · subst hpf
        rw [hq]
        simp
      · simp [List.mem_cons, hpf]
    | none =>
      rcases h2 : addFiles cid rest (dictInsert fds f (NodeId.file (fds.length + 1)))
        with ⟨ls, fds'⟩
      have := ih (dictInsert fds f (NodeId.file (fds.length + 1)))
      rw [h2] at this
      rw [addFiles, hq]
      simp only [h2]
      rw [this, dictLookup_insert]
      by_cases hpf : p = f
      · subst hpf
        rw [hq]
        simp
      · rw [if_neg hpf]
        simp [List.mem_cons, hpf]

theorem addFiles_wf (cid : NodeId) :
    ∀ (fs : List Str) (fds : List (Str × NodeId)), wfFds fds →
      wfFds (addFiles cid fs fds).2 := by
  intro fs
  induction fs with
  | nil => intro fds h; exact h
  | cons f rest ih =>
    intro fds h
    cases hq : dictLookup fds f with
    | some fid =>
      rcases h2 : addFiles cid rest fds with ⟨ls, fds'⟩
      have := ih fds h
      rw [h2] at this
      rw [addFiles, hq, h2]
      exact this
    | none =>
      rcases h2 : addFiles cid rest (dictInsert fds f (NodeId.file (fds.length + 1)))
        with ⟨ls, fds'⟩
      have hins : wfFds (dictInsert fds f (NodeId.file (fds.length + 1))) := by
        rw [dictInsert_of_absent hq]
        rw [wfFds] at h ⊢
        simp only [List.map_append, List.length_append, h, List.map_cons, List.map_nil,
          List.length_cons, List.length_nil]
        rw [List.range_succ]
        simp
      have := ih (dictInsert fds f (NodeId.file (fds.length + 1))) hins
      rw [h2] at this
      rw [addFiles, hq]
      simp only [h2]
      exact this

theorem addFiles_fileDecl_count (cid : NodeId) (p : Str) :
    ∀ (fs : List Str) (fds : List (Str × NodeId)),
      countFileDecl p (addFiles cid fs fds).1 =
        if (dictLookup fds p).isSome then 0 else if p ∈ fs then 1 else 0 := by
  intro fs
  induction fs with
  | nil =>
    intro fds
    simp [addFiles, countFileDecl]
  | cons f rest ih =>
    intro fds
    cases hq : dictLookup fds f with
    | some fid =>
      rcases h2 : addFiles cid rest fds with ⟨ls, fds'⟩
      have hrec := ih fds
      rw [h2] at hrec
      rw [addFiles, hq, h2]
      simp only [countFileDecl, List.countP_cons] at hrec ⊢
      have hhead : isFileDeclFor p (GLine.touched cid fid) = false := rfl
      rw [hhead]
      simp only [Bool.false_eq_true, if_false, Nat.add_zero]
      rw [hrec]
      by_cases hs : (dictLookup fds p).isSome
      · simp [hs]
      · have hpf : ¬ p = f := fun he => by rw [he, hq] at hs; exact hs rfl
        simp [hs, List.mem_cons, hpf]
    | none =>
      rcases h2 : addFiles cid rest (dictInsert fds f (NodeId.file (fds.length + 1)))
        with ⟨ls, fds'⟩
      have hrec := ih (dictInsert fds f (NodeId.file (fds.length + 1)))
      rw [h2] at hrec
      rw [addFiles, hq]
      simp only [h2]
      simp only [countFileDecl, List.countP_cons] at hrec ⊢
      rw [hrec, dictLookup_insert]
      by_cases hpf : p = f
      · subst hpf
        rw [hq]
        simp [isFileDeclFor]
      · rw [if_neg hpf]
        have hh2 : isFileDeclFor p (GLine.fileDecl f (NodeId.file (fds.length + 1))) = false := by
          simp [isFileDeclFor]
          exact fun he => hpf he.symm
        have hh3 : isFileDeclFor p (GLine.touched cid (NodeId.file (fds.length + 1))) = false := rfl
        rw [hh2, hh3]
        simp only [Bool.false_eq_true, if_false, Nat.add_zero]
        by_cases hs : (dictLookup fds p).isSome
        · simp [hs]
        · simp [hs, List.mem_cons, hpf]

theorem addFiles_touched_count (cid fid : NodeId) (F : List (Str × NodeId)) :
    ∀ (fs : List Str) (fds : List (Str × NodeId)),
      (∀ q v, dictLookup (addFiles cid fs fds).2 q = some v → dictLookup F q = some v) →
      countTouchedTo fid (addFiles cid fs fds).1 =
        fs.countP (fun f => decide (dictLookup F f = some fid)) := by
  intro fs
  induction fs with
  | nil => intro fds _; simp [addFiles, countTouchedTo]
  | cons f rest ih =>
    intro fds hext
    cases hq : dictLookup fds f with
    | some v0 =>
      rcases h2 : addFiles cid rest fds with ⟨ls, fds'⟩
      have hext' : ∀ q v, dictLookup (addFiles cid rest fds).2 q = some v →
          dictLookup F q = some v := by
        intro q v hv
        rw [h2] at hv
        exact hext q v (by rw [addFiles, hq, h2]; exact hv)
      have hrec := ih fds hext'
      rw [h2] at hrec
      have hst := addFiles_lookup_stable cid rest fds hq
      rw [h2] at hst
      have hFf : dictLookup F f = some v0 :=
        hext f v0 (by rw [addFiles, hq, h2]; exact hst)
      rw [addFiles, hq, h2]
      simp only [countTouchedTo, List.countP_cons] at hrec ⊢
      rw [hrec, hFf]
      simp [isTouchedTo]
    | none =>
      rcases h2 : addFiles cid rest (dictInsert fds f (NodeId.file (fds.length + 1)))
        with ⟨ls, fds'⟩
      have hext' : ∀ q v,
          dictLookup (addFiles cid rest (dictInsert fds f (NodeId.file (fds.length + 1)))).2 q =
            some v → dictLookup F q = some v := by
        intro q v hv
        rw [h2] at hv
        refine hext q v ?_
        rw [addFiles, hq]
        simp only [h2]
        exact hv
      have hrec := ih (dictInsert fds f (NodeId.file (fds.length + 1))) hext'
      rw [h2] at hrec
      have hins : dictLookup (dictInsert fds f (NodeId.file (fds.length + 1))) f =
          some (NodeId.file (fds.length + 1)) := by
        rw [dictLookup_insert, if_pos rfl]
      have hst := addFiles_lookup_stable cid rest
        (dictInsert fds f (NodeId.file (fds.length + 1))) hins
      rw [h2] at hst
      have hFf : dictLookup F f = some (NodeId.file (fds.length + 1)) := by
        refine hext f _ ?_
        rw [addFiles, hq]
        simp only [h2]
        exact hst
      rw [addFiles, hq]
      simp only [h2]
      simp only [countTouchedTo, List.countP_cons] at hrec ⊢
      rw [hrec, hFf]
      have hfd : isTouchedTo fid (GLine.fileDecl f (NodeId.file (fds.length + 1))) = false := rfl
      rw [hfd]
      simp [isTouchedTo]

theorem addFiles_fileDecl_lookup (cid : NodeId) :
    ∀ (fs : List Str) (fds : List (Str × NodeId)) (q : Str) (g : NodeId),
      GLine.fileDecl q g ∈ (addFiles cid fs fds).1 →
      dictLookup (addFiles cid fs fds).2 q = some g := by
  intro fs
  induction fs with
  | nil => intro fds q g hg; simp [addFiles] at hg
  | cons f rest ih =>
    intro fds q g hg
    cases hq : dictLookup fds f with
    | some v0 =>
      rcases h2 : addFiles cid rest fds with ⟨ls, fds'⟩
      rw [addFiles, hq, h2] at hg ⊢
      rcases List.mem_cons.mp hg with h | h
      · exact absurd h (by simp)
      · have := ih fds q g (by rw [h2]; exact h)
        rw [h2] at this
        exact this
    | none =>
      rcases h2 : addFiles cid rest (dictInsert fds f (NodeId.file (fds.length + 1)))
        with ⟨ls, fds'⟩
      rw [addFiles, hq] at hg ⊢
      simp only [h2] at hg ⊢
      rcases List.mem_cons.mp hg with h | h
      · injection h with hq1 hq2
        subst hq1
        subst hq2
        have hins : dictLookup (dictInsert fds q (NodeId.file (fds.length + 1))) q =
            some (NodeId.file (fds.length + 1)) := by
          rw [dictLookup_insert, if_pos rfl]
        have hst := addFiles_lookup_stable cid rest
          (dictInsert fds q (NodeId.file (fds.length + 1))) hins
        rw [h2] at hst
        exact hst
      · rcases List.mem_cons.mp h with h3 | h3
        · exact absurd h3 (by simp)
        · have := ih (dictInsert fds f (NodeId.file (fds.length + 1))) q g (by rw [h2]; exact h3)
          rw [h2] at this
          exact this

theorem buildNodes_fds_stable {p : Str} {v : NodeId} :
    ∀ (l : List Commit) (idx : Nat) (cds fds : List (Str × NodeId)),
      dictLookup fds p = some v → dictLookup (buildNodes l idx cds fds).2.2 p = some v := by
  intro l
  induction l with
  | nil => intro idx cds fds h; exact h
  | cons c rest ih =>
    intro idx cds fds h
    rcases h1 : addFiles (NodeId.commit (idx + 1)) c.files fds with ⟨fLines, fds'⟩
    rcases h2 : buildNodes rest (idx + 1) (dictInsert cds c.hash (NodeId.commit (idx + 1))) fds'
      with ⟨ls, cds', fds''⟩
    have hstep := addFiles_lookup_stable (NodeId.commit (idx + 1)) c.files fds h
    rw [h1] at hstep
    have := ih (idx + 1) (dictInsert cds c.hash (NodeId.commit (idx + 1))) fds' hstep
    rw [h2] at this
    rw [buildNodes, h1]
    simp only [h2]
    exact this

theorem buildNodes_fds_isSome (p : Str) :
    ∀ (l : List Commit) (idx : Nat) (cds fds : List (Str × NodeId)),
      (dictLookup (buildNodes l idx cds fds).2.2 p).isSome =
        ((dictLookup fds p).isSome || decide (∃ c ∈ l, p ∈ c.files)) := by
  intro l
  induction l with
  | nil => intro idx cds fds; simp [buildNodes]
  | cons c rest ih =>
    intro idx cds fds
    rcases h1 : addFiles (NodeId.commit (idx + 1)) c.files fds with ⟨fLines, fds'⟩
    rcases h2 : buildNodes rest (idx + 1) (dictInsert cds c.hash (NodeId.commit (idx + 1))) fds'
      with ⟨ls, cds', fds''⟩
    have hA := addFiles_lookup_isSome (NodeId.commit (idx + 1)) p c.files fds
    rw [h1] at hA
    have hI := ih (idx + 1) (dictInsert cds c.hash (NodeId.commit (idx + 1))) fds'
    rw [h2] at hI
    rw [buildNodes, h1]
    simp only [h2]
    rw [hI, hA]
    by_cases hx : p ∈ c.files <;> by_cases hy : ∃ c' ∈ rest, p ∈ c'.files <;>
      simp [hx, hy, List.exists_mem_cons_iff]

theorem buildNodes_wf :
    ∀ (l : List Commit) (idx : Nat) (cds fds : List (Str × NodeId)),
      wfFds fds → wfFds (buildNodes l idx cds fds).2.2 := by
  intro l
  induction l with
  | nil => intro idx cds fds h; exact h
  | cons c rest ih =>
    intro idx cds fds h
    rcases h1 : addFiles (NodeId.commit (idx + 1)) c.files fds with ⟨fLines, fds'⟩
    rcases h2 : buildNodes rest (idx + 1) (dictInsert cds c.hash (NodeId.commit (idx + 1))) fds'
      with ⟨ls, cds', fds''⟩
    have hstep := addFiles_wf (NodeId.commit (idx + 1)) c.files fds h
    rw [h1] at hstep
    have := ih (idx + 1) (dictInsert cds c.hash (NodeId.commit (idx + 1))) fds' hstep
    rw [h2] at this
    rw [buildNodes, h1]
    simp only [h2]
    exact this

theorem buildNodes_fileDecl_count (p : Str) :
    ∀ (l : List Commit) (idx : Nat) (cds fds : List (Str × NodeId)),
      countFileDecl p (buildNodes l idx cds fds).1 =
        if (dictLookup fds p).isSome then 0
        else if ∃ c ∈ l, p ∈ c.files then 1 else 0 := by
  intro l
  induction l with
  | nil =>
    intro idx cds fds
    simp [buildNodes, countFileDecl]
  | cons c rest ih =>
    intro idx cds fds
    rcases h1 : addFiles (NodeId.commit (idx + 1)) c.files fds with ⟨fLines, fds'⟩
    rcases h2 : buildNodes rest (idx + 1) (dictInsert cds c.hash (NodeId.commit (idx + 1))) fds'
      with ⟨ls, cds', fds''⟩
    have hA := addFiles_fileDecl_count (NodeId.commit (idx + 1)) p c.files fds
    rw [h1] at hA
    have hI := ih (idx + 1) (dictInsert cds c.hash (NodeId.commit (idx + 1))) fds'
    rw [h2] at hI
    have hS := addFiles_lookup_isSome (NodeId.commit (idx + 1)) p c.files fds
    rw [h1] at hS
    rw [buildNodes, h1]
    simp only [h2]
    simp only [countFileDecl, List.countP_cons, List.countP_append] at hA hI ⊢
    have hhead : isFileDeclFor p (GLine.commitDecl c.message (NodeId.commit (idx + 1))) = false :=
      rfl
    rw [hhead]
    simp only [Bool.false_eq_true, if_false, Nat.add_zero]
    rw [hA, hI, hS]
    by_cases ha : (dictLookup fds p).isSome
    · simp [ha]
    · simp only [ha, Bool.false_or, if_false]
      by_cases hm : p ∈ c.files
      · have : decide (p ∈ c.files) = true := by simp [hm]
        rw [this]
        simp [hm, List.exists_mem_cons_iff]
      · have : decide (p ∈ c.files) = false := by simp [hm]
        rw [this]
        simp [hm, List.exists_mem_cons_iff]

theorem buildNodes_touched_count (fid : NodeId) (F : List (Str × NodeId)) :
    ∀ (l : List Commit) (idx : Nat) (cds fds : List (Str × NodeId)),
      (∀ q v, dictLookup (buildNodes l idx cds fds).2.2 q = some v →
        dictLookup F q = some v) →
      countTouchedTo fid (buildNodes l idx cds fds).1 =
        (l.map (fun c => c.files.countP (fun f => decide (dictLookup F f = some fid)))).sum := by
  intro l
  induction l with
  | nil => intro idx cds fds _; simp [buildNodes, countTouchedTo]
  | cons c rest ih =>
    intro idx cds fds hext
    rcases h1 : addFiles (NodeId.commit (idx + 1)) c.files fds with ⟨fLines, fds'⟩
    rcases h2 : buildNodes rest (idx + 1) (dictInsert cds c.hash (NodeId.commit (idx + 1))) fds'
      with ⟨ls, cds', fds''⟩
    rw [buildNodes, h1] at hext
    simp only [h2] at hext
    have hextI : ∀ q v,
        dictLookup (buildNodes rest (idx + 1)
          (dictInsert cds c.hash (NodeId.commit (idx + 1))) fds').2.2 q = some v →
        dictLookup F q = some v := by
      intro q v hv
      rw [h2] at hv
      exact hext q v hv
    have hextA : ∀ q v,
        dictLookup (addFiles (NodeId.commit (idx + 1)) c.files fds).2 q = some v →
        dictLookup F q = some v := by
      intro q v hv
      rw [h1] at hv
      have := buildNodes_fds_stable rest (idx + 1)
        (dictInsert cds c.hash (NodeId.commit (idx + 1))) fds' hv
      rw [h2] at this
      exact hext q v this
    have hA := addFiles_touched_count (NodeId.commit (idx + 1)) fid F c.files fds hextA
    rw [h1] at hA
    have hI := ih (idx + 1) (dictInsert cds c.hash (NodeId.commit (idx + 1))) fds' hextI
    rw [h2] at hI
    rw [buildNodes, h1]
    simp only [h2]
    simp only [countTouchedTo, List.countP_cons, List.countP_append] at hA hI ⊢
    have hhead : isTouchedTo fid (GLine.commitDecl c.message (NodeId.commit (idx + 1))) = false :=
      rfl
    rw [hhead]
    simp only [Bool.false_eq_true, if_false, Nat.add_zero, List.map_cons, List.sum_cons]
    rw [hA, hI]

theorem buildNodes_fileDecl_lookup :
    ∀ (l : List Commit) (idx : Nat) (cds fds : List (Str × NodeId)) (q : Str) (g : NodeId),
      GLine.fileDecl q g ∈ (buildNodes l idx cds fds).1 →
      dictLookup (buildNodes l idx cds fds).2.2 q = some g := by
  intro l
  induction l with
  | nil => intro idx cds fds q g hg; simp [buildNodes] at hg
  | cons c rest ih =>
    intro idx cds fds q g hg
    rcases h1 : addFiles (NodeId.commit (idx + 1)) c.files fds with ⟨fLines, fds'⟩
    rcases h2 : buildNodes rest (idx + 1) (dictInsert cds c.hash (NodeId.commit (idx + 1))) fds'
      with ⟨ls, cds', fds''⟩
    rw [buildNodes, h1] at hg ⊢
    simp only [h2] at hg ⊢
    rcases List.mem_cons.mp hg with h | h
    · exact absurd h (by simp)
    · rcases List.mem_append.mp h with h3 | h3
      · have hA := addFiles_fileDecl_lookup (NodeId.commit (idx + 1)) c.files fds q g
          (by rw [h1]; exact h3)
        rw [h1] at hA
        have := buildNodes_fds_stable rest (idx + 1)
          (dictInsert cds c.hash (NodeId.commit (idx + 1))) fds' hA
        rw [h2] at this
        exact this
      · have := ih (idx + 1) (dictInsert cds c.hash (NodeId.commit (idx + 1))) fds' q g
          (by rw [h2]; exact h3)
        rw [h2] at this
        exact this

/-! ### Injectivity of the `file_defs` values and occurrence counting -/

theorem dictLookup_inj_of_nodup {d : List (Str × NodeId)}
    (hnd : (d.map Prod.snd).Nodup) {p q : Str} {v : NodeId}
    (hp : dictLookup d p = some v) (hq : dictLookup d q = some v) : p = q := by
  induction d with
  | nil => simp [dictLookup] at hp
  | cons hd tl ih =>
    obtain ⟨k, w⟩ := hd
    simp only [List.map_cons, List.nodup_cons] at hnd
    obtain ⟨hw, hnd'⟩ := hnd
    simp only [dictLookup] at hp hq
    by_cases hkp : k = p
    · by_cases hkq : k = q
      · rw [← hkp, ← hkq]
      · rw [if_pos hkp] at hp
        rw [if_neg hkq] at hq
        injection hp with hv
        subst hv
        exact absurd (List.mem_map.mpr ⟨(q, w), dictLookup_mem hq, rfl⟩) hw
    · by_cases hkq : k = q
      · rw [if_neg hkp] at hp
        rw [if_pos hkq] at hq
        injection hq with hv
        subst hv
        exact absurd (List.mem_map.mpr ⟨(p, w), dictLookup_mem hp, rfl⟩) hw
      · rw [if_neg hkp] at hp
        rw [if_neg hkq] at hq
        exact ih hnd' hp hq

theorem wfFds_nodup_values {fds : List (Str × NodeId)} (h : wfFds fds) :
    (fds.map Prod.snd).Nodup := by
  rw [wfFds] at h
  rw [h]
  refine List.Nodup.map ?_ (List.nodup_range _)
  intro a b hab
  have : a + 1 = b + 1 := by simpa using hab
  omega

theorem wf_lookup_inj {fds : List (Str × NodeId)} (h : wfFds fds) {p q : Str} {v : NodeId}
    (hp : dictLookup fds p = some v) (hq : dictLookup fds q = some v) : p = q :=
  dictLookup_inj_of_nodup (wfFds_nodup_values h) hp hq

theorem sum_occCount (path : Str) :
    ∀ l : List Commit, (∀ c ∈ l, occCount path c.files ≤ 1) →
      (l.map (fun c => occCount path c.files)).sum =
        (l.filter (fun c => decide (path ∈ c.files))).length := by
  intro l
  induction l with
  | nil => intro _; rfl
  | cons c rest ih =>
    intro h
    have hc := h c (List.mem_cons_self c rest)
    have hr := ih (fun x hx => h x (List.mem_cons_of_mem c hx))
    simp only [List.map_cons, List.sum_cons, List.filter_cons]
    by_cases hm : path ∈ c.files
    · have h1 : 0 < occCount path c.files := by
        rw [occCount, List.countP_pos]
        exact ⟨path, hm, by simp⟩
      have h2 : occCount path c.files = 1 := Nat.le_antisymm hc h1
      have h3 : decide (path ∈ c.files) = true := by simp [hm]
      rw [h2, h3, hr]
      simp [Nat.add_comm]
    · have h0 : occCount path c.files = 0 := by
        rw [occCount, List.countP_eq_zero]
        intro a ha
        simp only [decide_eq_true_eq]
        intro he
        exact hm (he ▸ ha)
      have h3 : decide (path ∈ c.files) = false := by simp [hm]
      rw [h0, h3, hr]
      simp

theorem fileDecl_mem_build_graph_elim {commits : List Commit} {q : Str} {g : NodeId}
    (h : GLine.fileDecl q g ∈ build_graph commits) :
    GLine.fileDecl q g ∈ (buildNodes commits.reverse 0 [] []).1 := by
  rcases he : buildNodes commits.reverse 0 [] [] with ⟨nl, cds, fds⟩
  simp only [build_graph, he, List.mem_append] at h
  rcases h with ((h | h) | h) | h
  · simp [preambleLines] at h
  · exact h
  · rcases buildDerives_shape commits.reverse _ h with ⟨a, b, he2⟩
    simp at he2
  · simp at h

/-- C4 counterexample to the claim as stated: in `wDoubled` the path `f`
appears in the file lists of exactly one record (`N = 1`), yet the single
record lists it twice and the builder appends one touched edge per
*occurrence*: the unique file node `File1` receives two touched edges, not
one. -/
theorem file_touched_count_cex :
    (wDoubled.filter (fun c => decide ("f".toList ∈ c.files))).length = 1 ∧
    dictLookup (fileDefsOf wDoubled) ("f".toList) = some (NodeId.file 1) ∧
    countFileDecl ("f".toList) (build_graph wDoubled) = 1 ∧
    countTouchedTo (NodeId.file 1) (build_graph wDoubled) = 2 ∧
    countTouchedTo (NodeId.file 1) (build_graph wDoubled) ≠ 1 :=
  ⟨by decide, by decide, by decide, by decide, by decide⟩

/-- C4, amended statement: a file path occurring anywhere in the sequence
produces exactly one file-node declaration; the identifier assigned at its
first-seen occurrence is the one every later lookup returns (any declaration
carrying the path carries exactly that identifier); and the number of touched
edges referencing that file node equals the total number of *occurrences* of
the path across all records' file lists — which coincides with the number of
records containing the path exactly when no record lists it twice. -/
theorem file_node_decl_and_touched_per_occurrence (commits : List Commit) (path : Str)
    (hocc : 0 < (commits.map (fun c => occCount path c.files)).sum) :
    countFileDecl path (build_graph commits) = 1 ∧
    ∃ fid, dictLookup (fileDefsOf commits) path = some fid ∧
      (∀ g, GLine.fileDecl path g ∈ build_graph commits → g = fid) ∧
      countTouchedTo fid (build_graph commits) =
        (commits.map (fun c => occCount path c.files)).sum ∧
      ((∀ c ∈ commits, occCount path c.files ≤ 1) →
        countTouchedTo fid (build_graph commits) =
          (commits.filter (fun c => decide (path ∈ c.files))).length) := by
  have hex : ∃ c ∈ commits, path ∈ c.files := by
    by_contra hno
    push_neg at hno
    have hz : (commits.map (fun c => occCount path c.files)).sum = 0 := by
      rw [List.sum_eq_zero]
      intro x hx
      rcases List.mem_map.mp hx with ⟨c, hc, rfl⟩
      rw [occCount, List.countP_eq_zero]
      intro a ha
      simp only [decide_eq_true_eq]
      intro he
      exact hno c hc (he ▸ ha)
    omega
  have hexr : ∃ c ∈ commits.reverse, path ∈ c.files := by
    rcases hex with ⟨c, hc, hp⟩
    exact ⟨c, List.mem_reverse.mpr hc, hp⟩
  rcases hB : buildNodes commits.reverse 0 [] [] with ⟨nodeLines, cds, fds⟩
  have hwfnil : wfFds [] := rfl
  have hwf : wfFds fds := by
    have := buildNodes_wf commits.reverse 0 [] [] hwfnil
    rw [hB] at this
    exact this
  have hfds : fileDefsOf commits = fds := by rw [fileDefsOf, hB]
  have hsome : (dictLookup fds path).isSome := by
    have hiso := buildNodes_fds_isSome path commits.reverse 0 [] []
    rw [hB] at hiso
    simp only at hiso
    rw [hiso, decide_eq_true hexr]
    simp
  rcases Option.isSome_iff_exists.mp hsome with ⟨fid, hfid⟩
  have hdc : countFileDecl path (build_graph commits) = 1 := by
    have h2 := buildNodes_fileDecl_count path commits.reverse 0 [] []
    rw [hB] at h2
    simp only [countFileDecl] at h2
    have h3 : List.countP (isFileDeclFor path) (buildDerives cds commits.reverse) = 0 := by
      rw [List.countP_eq_zero]
      intro g hg
      rcases buildDerives_shape commits.reverse g hg with ⟨a, b, rfl⟩
      simp [isFileDeclFor]
    simp only [build_graph, hB, countFileDecl, List.countP_append]
    have h1 : List.countP (isFileDeclFor path) preambleLines = 0 := rfl
    have h4 : List.countP (isFileDeclFor path) [GLine.text "@enduml".toList] = 0 := rfl
    have he1 : (dictLookup ([] : List (Str × NodeId)) path).isSome = false := rfl
    rw [he1] at h2
    simp only [Bool.false_eq_true, if_false] at h2
    rw [if_pos hexr] at h2
    rw [h1, h3, h4, h2]
  have htc : countTouchedTo fid (build_graph commits) =
      (commits.map (fun c => occCount path c.files)).sum := by
    have hext : ∀ q v, dictLookup (buildNodes commits.reverse 0 [] []).2.2 q = some v →
        dictLookup fds q = some v := by
      intro q v hv
      rw [hB] at hv
      exact hv
    have h5 := buildNodes_touched_count fid fds commits.reverse 0 [] [] hext
    rw [hB] at h5
    simp only [countTouchedTo] at h5
    have h3 : List.countP (isTouchedTo fid) (buildDerives cds commits.reverse) = 0 := by
      rw [List.countP_eq_zero]
      intro g hg
      rcases buildDerives_shape commits.reverse g hg with ⟨a, b, rfl⟩
      simp [isTouchedTo]
    simp only [build_graph, hB, countTouchedTo, List.countP_append]
    have h1 : List.countP (isTouchedTo fid) preambleLines = 0 := rfl
    have h4 : List.countP (isTouchedTo fid) [GLine.text "@enduml".toList] = 0 := rfl
    rw [h1, h3, h4, h5]
    have hmap : commits.reverse.map
        (fun c => c.files.countP (fun f => decide (dictLookup fds f = some fid))) =
        commits.reverse.map (fun c => occCount path c.files) := by
      refine List.map_congr_left ?_
      intro c _
      rw [occCount]
      refine List.countP_congr ?_
      intro f _
      by_cases hf : f = path
      · subst hf
        simp [hfid]
      · constructor
        · intro hc
          have hc2 : dictLookup fds f = some fid := by simpa using hc
          exact absurd (wf_lookup_inj hwf hc2 hfid) hf
        · intro hc
          exact absurd (by simpa using hc) hf
    rw [hmap, List.map_reverse, List.sum_reverse]
    simp
  refine ⟨hdc, fid, by rw [hfds]; exact hfid, ?_, htc, ?_⟩
  · intro g hg
    have hmem := fileDecl_mem_build_graph_elim hg
    have hlk := buildNodes_fileDecl_lookup commits.reverse 0 [] [] path g hmem
    rw [hB] at hlk
    simp only at hlk
    rw [hfid] at hlk
    injection hlk.symm
  · intro hdup
    rw [htc, sum_occCount path commits hdup]

/-- C4 witness: in `wShared` the path `f.txt` occurs once in each of two
records; one declaration, two touched edges to its node, and the
no-within-record-duplicates bridge to the number of containing records. -/
theorem file_node_decl_and_touched_per_occurrence_witness :
    (0 < (wShared.map (fun c => occCount ("f.txt".toList) c.files)).sum) ∧
    (countFileDecl ("f.txt".toList) (build_graph wShared) = 1 ∧
     ∃ fid, dictLookup (fileDefsOf wShared) ("f.txt".toList) = some fid ∧
       (∀ g, GLine.fileDecl ("f.txt".toList) g ∈ build_graph wShared → g = fid) ∧
       countTouchedTo fid (build_graph wShared) =
         (wShared.map (fun c => occCount ("f.txt".toList) c.files)).sum ∧
       ((∀ c ∈ wShared, occCount ("f.txt".toList) c.files ≤ 1) →
         countTouchedTo fid (build_graph wShared) =
           (wShared.filter (fun c => decide ("f.txt".toList ∈ c.files))).length)) :=
  ⟨by decide,
    file_node_decl_and_touched_per_occurrence wShared ("f.txt".toList) (by decide)⟩
